import Mathlib

/-!
Verification development for the `intervalues` library: weighted intervals,
a sweep-line combiner, and the resulting sorted disjoint interval collection.

The Rust source is generic over numeric backends satisfying `num_traits::Num`
(machine integers, decimals, an arbitrary-precision integer wrapper).  The
embedding instantiates both the bound type `T` and the weight type `U` at
`Int`, the arbitrary-precision integer backend.  The accumulation map
(`DefaultHashMap<T, U>` in the source) is order-irrelevant: each coordinate
key holds the net sum of signed deltas, and the subsequent sort by coordinate
makes the result independent of hash-iteration order; the embedding therefore
computes each coordinate's net delta directly and sorts the surviving
`(coordinate, delta)` pairs by coordinate.
-/

namespace Intervalues

/-- `Interval<T, U>` from `interval.rs`: lower bound, upper bound, weight. -/
structure Interval where
  lb : Int
  ub : Int
  val : Int
  deriving DecidableEq, Repr

/-- `BaseInterval<T>` from `base_interval.rs`: bounds without a weight. -/
structure BaseInterval where
  lb : Int
  ub : Int
  deriving DecidableEq, Repr

/-- `Interval::new`: swaps the bounds when given in reverse order. -/
def Interval.new (lb ub val : Int) : Interval :=
  if ub > lb then ⟨lb, ub, val⟩ else ⟨ub, lb, val⟩

/-- `BaseInterval::new`: swaps the bounds when given in reverse order. -/
def BaseInterval.new (lb ub : Int) : BaseInterval :=
  if ub > lb then ⟨lb, ub⟩ else ⟨ub, lb⟩

/-- `Interval::to_tuple`. -/
def Interval.to_tuple (i : Interval) : Int × Int × Int :=
  (i.lb, i.ub, i.val)

/-- `Interval::get_width`. -/
def Interval.get_width (i : Interval) : Int :=
  i.ub - i.lb

/-- `Interval::get_value`. -/
def Interval.get_value (i : Interval) : Int :=
  i.val

/-- `Interval::contains`: closed-range membership. -/
def Interval.contains (i : Interval) (num : Int) : Bool :=
  decide (num ≥ i.lb) && decide (num ≤ i.ub)

/-- `BaseInterval::contains`: closed-range membership. -/
def BaseInterval.contains (i : BaseInterval) (num : Int) : Bool :=
  decide (num ≥ i.lb) && decide (num ≤ i.ub)

/-- `Interval::left_overlaps`. -/
def Interval.left_overlaps (a b : Interval) : Bool :=
  decide (a.lb ≤ b.lb) && decide (a.ub ≤ b.ub) && decide (b.lb ≤ a.ub)

/-- `Interval::right_overlaps`. -/
def Interval.right_overlaps (a b : Interval) : Bool :=
  b.left_overlaps a

/-- `Interval::overlaps`. -/
def Interval.overlaps (a b : Interval) : Bool :=
  a.left_overlaps b || a.right_overlaps b

/-- `Interval::can_join`. -/
def Interval.can_join (a b : Interval) : Bool :=
  (decide (a.ub = b.lb) || decide (b.ub = a.lb)) && decide (a.val = b.val)
    || decide (a.ub = b.ub) && decide (a.lb = b.lb)

/-- `Interval::join`: identical bounds sum the weights; otherwise the result
keeps the receiver's weight and spans from the smaller side. -/
def Interval.join (a b : Interval) : Interval :=
  if a.ub = b.ub ∧ a.lb = b.lb then
    Interval.new a.lb a.ub (a.val + b.val)
  else if a.lb < b.lb then
    Interval.new a.lb b.ub a.val
  else
    Interval.new b.lb a.ub a.val

/-- `Interval::can_join_as_set`. -/
def Interval.can_join_as_set (a b : Interval) : Bool :=
  a.overlaps b

/-- `Interval::join_ign_value`: span of both intervals with weight one. -/
def Interval.join_ign_value (a b : Interval) : Interval :=
  Interval.new (if a.lb < b.lb then a.lb else b.lb)
    (if a.ub > b.ub then a.ub else b.ub) 1

/-- `Interval::to_base`. -/
def Interval.to_base (i : Interval) : BaseInterval :=
  BaseInterval.new i.lb i.ub

/-- `Interval::get_total_value`: width times weight. -/
def Interval.get_total_value (i : Interval) : Int :=
  (i.ub - i.lb) * i.val

/-- `BaseInterval::get_lb`. -/
def BaseInterval.get_lb (i : BaseInterval) : Int :=
  i.lb

/-- `BaseInterval::get_ub`. -/
def BaseInterval.get_ub (i : BaseInterval) : Int :=
  i.ub

/-- `IntervalCollection<T, U>` from `interval_collection.rs`. -/
structure IntervalCollection where
  intervals : List Interval
  deriving DecidableEq, Repr

/-- `IntervalCollection::from_vec`: raw constructor, no validation. -/
def IntervalCollection.from_vec (v : List Interval) : IntervalCollection :=
  ⟨v⟩

/-- `IntervalCollection::to_vec`. -/
def IntervalCollection.to_vec (c : IntervalCollection) : List Interval :=
  c.intervals

/-- `IntervalCollection::len`. -/
def IntervalCollection.len (c : IntervalCollection) : Nat :=
  c.intervals.length

/-- `IntervalCollection::get_lb`: indexes `intervals[0]`, which panics on an
empty collection; the panic is modelled as `none`. -/
def IntervalCollection.get_lb (c : IntervalCollection) : Option Int :=
  c.intervals.head?.map Interval.lb

/-- `IntervalCollection::get_ub`: `intervals.last().unwrap()`, which panics on
an empty collection; the panic is modelled as `none`. -/
def IntervalCollection.get_ub (c : IntervalCollection) : Option Int :=
  c.intervals.getLast?.map Interval.ub

/-- `IntervalCollection::get_bounds`: both accessors at once, with the same
panic-on-empty behaviour modelled as `none`. -/
def IntervalCollection.get_bounds (c : IntervalCollection) : Option (Int × Int) :=
  match c.intervals.head?, c.intervals.getLast? with
  | some a, some b => some (a.lb, b.ub)
  | _, _ => none

/-- `IntervalCollection::total_value`: sum of width times weight. -/
def IntervalCollection.total_value (c : IntervalCollection) : Int :=
  (c.intervals.map (fun i => i.get_width * i.get_value)).sum

/-- The loop of `IntervalCollection::to_vec_as_set`: the running interval is
merged with the next one when `can_join_as_set` holds, otherwise it is closed
off (as a `BaseInterval`) and the walk restarts from the next interval. -/
def set_walk (cur : Interval) : List Interval → List BaseInterval
  | [] => [cur.to_base]
  | next :: rest =>
    if cur.can_join_as_set next then set_walk (cur.join_ign_value next) rest
    else cur.to_base :: set_walk next rest

/-- `IntervalCollection::to_vec_as_set`. -/
def IntervalCollection.to_vec_as_set (c : IntervalCollection) : List BaseInterval :=
  match c.intervals with
  | [] => []
  | first :: rest => set_walk first rest

/-- Net signed delta contributed at coordinate `c` by the input intervals:
`+val` at each lower bound, `-val` at each upper bound (the content of the
`DefaultHashMap` accumulation in `intervals_to_points`). -/
def pointDelta (input : List Interval) (c : Int) : Int :=
  (input.map (fun i =>
    (if i.lb = c then i.val else 0) - (if i.ub = c then i.val else 0))).sum

/-- The coordinates occurring as a bound of some input interval (the key set
of the accumulation map). -/
def endpointCoords (input : List Interval) : List Int :=
  (input.flatMap (fun i => [i.lb, i.ub])).dedup

/-- Comparison of endpoint records by coordinate, as in the
`sort_by(partial_cmp)` step of `intervals_to_points`. -/
def coordLe (p q : Int × Int) : Prop :=
  p.1 ≤ q.1

instance : DecidableRel coordLe :=
  fun p q => inferInstanceAs (Decidable (p.1 ≤ q.1))

/-- Strict comparison of endpoint records by coordinate; since surviving
coordinates are distinct map keys, the sorted point list is strictly
increasing. -/
def coordLt (p q : Int × Int) : Prop :=
  p.1 < q.1

instance : IsAntisymm (Int × Int) coordLt :=
  ⟨fun p _ h1 h2 => absurd (lt_trans h1 h2) (lt_irrefl p.1)⟩

instance : IsTotal (Int × Int) coordLe :=
  ⟨fun p q => Int.le_total p.1 q.1⟩

instance : IsTrans (Int × Int) coordLe :=
  ⟨fun _ _ _ h h2 => le_trans h h2⟩

/-- The unsorted content of the accumulation map after the compaction step:
each surviving coordinate paired with its non-zero net delta. -/
def rawPoints (input : List Interval) : List (Int × Int) :=
  (endpointCoords input).filterMap (fun c =>
    if pointDelta input c ≠ 0 then some (c, pointDelta input c) else none)

/-- `intervals_to_points`: net deltas per coordinate, zero-delta coordinates
dropped, sorted by coordinate. -/
def intervals_to_points (input : List Interval) : List (Int × Int) :=
  List.insertionSort coordLe (rawPoints input)

/-- The prefix-sum loop shared by `combine_intervals` and `combine_as_set`:
point deltas become cumulative counts. -/
def cumsum (acc : Int) : List (Int × Int) → List (Int × Int)
  | [] => []
  | (c, d) :: rest => (c, acc + d) :: cumsum (acc + d) rest

/-- The emission loop of `combine_intervals`: for each adjacent pair of
surviving coordinates, emit an interval when the cumulative count at the lower
coordinate is non-zero. -/
def emitIntervals : List (Int × Int) → List Interval
  | [] => []
  | [_] => []
  | (c1, v1) :: (c2, v2) :: rest =>
    (if v1 ≠ 0 then [Interval.new c1 c2 v1] else []) ++
      emitIntervals ((c2, v2) :: rest)

/-- `combine_intervals` from `combine_intervals.rs`. -/
def combine_intervals (raw_ivs : List Interval) : IntervalCollection :=
  IntervalCollection.from_vec (emitIntervals (cumsum 0 (intervals_to_points raw_ivs)))

/-- The emission loop of `combine_as_set`: emit when the cumulative count at
the lower coordinate is strictly positive, merging with the last emitted
interval when it ends exactly where the new segment starts. -/
def setEmit (out : List BaseInterval) : List (Int × Int) → List BaseInterval
  | [] => out
  | [_] => out
  | (c1, v1) :: (c2, v2) :: rest =>
    let out2 :=
      if v1 > 0 then
        match out.getLast? with
        | none => out ++ [BaseInterval.new c1 c2]
        | some x =>
          if x.ub = c1 then out.dropLast ++ [BaseInterval.new x.lb c2]
          else out ++ [BaseInterval.new c1 c2]
      else out
    setEmit out2 ((c2, v2) :: rest)

/-- `combine_as_set` from `combine_intervals.rs`. -/
def combine_as_set (raw_ivs : List Interval) : List BaseInterval :=
  setEmit [] (cumsum 0 (intervals_to_points raw_ivs))

/-- Spec-side description of step 5 of the coverage variant: the segments with
strictly positive cumulative weight, one plain interval per adjacent pair of
surviving coordinates. -/
def specPosSegments : List (Int × Int) → List BaseInterval
  | [] => []
  | [_] => []
  | (c1, v1) :: (c2, v2) :: rest =>
    (if v1 > 0 then [BaseInterval.new c1 c2] else []) ++
      specPosSegments ((c2, v2) :: rest)

/-- Spec-side description of the greedy adjacency merge of the coverage
variant: a new segment is merged with the previously emitted interval exactly
when its lower bound equals the prior emitted upper bound. -/
def specMergeStep (out : List BaseInterval) (s : BaseInterval) : List BaseInterval :=
  match out.getLast? with
  | none => out ++ [s]
  | some x =>
    if x.ub = s.lb then out.dropLast ++ [BaseInterval.new x.lb s.ub]
    else out ++ [s]

/-- The coordinate of the last endpoint record of a point list (0 when the
list is empty; only used on non-empty lists). -/
def lastFst (l : List (Int × Int)) : Int :=
  (l.getLast?.map Prod.fst).getD 0

/-- Total value of a list of intervals: sum of width times weight (the body
of `IntervalCollection::total_value`). -/
def tvList (l : List Interval) : Int :=
  (l.map (fun i => i.get_width * i.get_value)).sum

/-- The delta function encoded by a point list: the net delta recorded for
coordinate `c`. -/
def deltaOf (l : List (Int × Int)) (c : Int) : Int :=
  (l.map (fun p => if p.1 = c then p.2 else 0)).sum

end Intervalues

namespace Intervalues

/-! ### Claim theorems that are decidable on concrete inputs -/

/-- C1: combining the weighted intervals (0,2,1) and (1,3,2) yields exactly
the interval sequence [(0,1,1), (1,2,3), (2,3,2)]. -/
theorem combine_literal_scenario_one :
    (combine_intervals [Interval.new 0 2 1, Interval.new 1 3 2]).intervals =
      [⟨0, 1, 1⟩, ⟨1, 2, 3⟩, ⟨2, 3, 2⟩] := by
  decide

/-- C10: combining the empty input succeeds and yields a collection of
length 0. -/
theorem combine_empty_input :
    combine_intervals [] = IntervalCollection.from_vec [] ∧
      (combine_intervals []).len = 0 := by
  decide

/-- C9: on a collection with zero intervals, the bound accessors `get_lb`,
`get_ub` and `get_bounds` fail (the source panics; the embedding returns
`none`) rather than produce a value. -/
theorem empty_collection_accessors_fail (c : IntervalCollection) (h : c.len = 0) :
    c.get_lb = none ∧ c.get_ub = none ∧ c.get_bounds = none := by
  have hnil : c.intervals = [] := List.length_eq_zero.mp h
  simp [IntervalCollection.get_lb, IntervalCollection.get_ub,
    IntervalCollection.get_bounds, hnil]

/-- Witness for C9 at the empty collection. -/
theorem empty_collection_accessors_fail_witness :
    (IntervalCollection.from_vec []).len = 0 ∧
      ((IntervalCollection.from_vec []).get_lb = none ∧
        (IntervalCollection.from_vec []).get_ub = none ∧
        (IntervalCollection.from_vec []).get_bounds = none) :=
  ⟨by decide, empty_collection_accessors_fail (IntervalCollection.from_vec []) (by decide)⟩

/-- C4 counterexample: for the boundary-adjacent pair a = (2,3,5), b = (0,2,7)
(bounds not identical, b has the smaller lower bound), `join` keeps the
receiver's weight 5, not the lower-bound side's weight 7. -/
theorem join_keeps_receiver_weight_cex :
    Interval.join ⟨2, 3, 5⟩ ⟨0, 2, 7⟩ = ⟨0, 3, 5⟩ ∧
      (⟨0, 2, 7⟩ : Interval).ub = (⟨2, 3, 5⟩ : Interval).lb ∧
      Interval.join ⟨2, 3, 5⟩ ⟨0, 2, 7⟩ ≠ ⟨min 2 0, max 3 2, 7⟩ := by
  decide

/-- C4 (amended): for canonical intervals (lb < ub), `join` on a
boundary-adjacent pair returns the interval from the minimum lower bound to
the maximum upper bound carrying the receiver's (first argument's) weight,
and on identical bounds it returns the same bounds with the weights summed. -/
theorem join_spec (a b : Interval) (ha : a.lb < a.ub) (hb : b.lb < b.ub) :
    ((a.ub = b.lb ∨ b.ub = a.lb) →
        a.join b = ⟨min a.lb b.lb, max a.ub b.ub, a.val⟩) ∧
      (a.lb = b.lb ∧ a.ub = b.ub → a.join b = ⟨a.lb, a.ub, a.val + b.val⟩) := by
  constructor
  · rintro (hadj | hadj)
    · have hlb : a.lb < b.lb := by omega
      have hne : ¬ (a.ub = b.ub ∧ a.lb = b.lb) := by omega
      simp only [Interval.join, if_neg hne, if_pos hlb, Interval.new]
      have : b.ub > a.lb := by omega
      rw [if_pos this]
      have h1 : min a.lb b.lb = a.lb := by omega
      have h2 : max a.ub b.ub = b.ub := by omega
      rw [h1, h2]
    · have hlb : ¬ a.lb < b.lb := by omega
      have hne : ¬ (a.ub = b.ub ∧ a.lb = b.lb) := by omega
      simp only [Interval.join, if_neg hne, if_neg hlb, Interval.new]
      have : a.ub > b.lb := by omega
      rw [if_pos this]
      have h1 : min a.lb b.lb = b.lb := by omega
      have h2 : max a.ub b.ub = a.ub := by omega
      rw [h1, h2]
  · rintro ⟨h1, h2⟩
    have heq : a.ub = b.ub ∧ a.lb = b.lb := ⟨h2.symm ▸ rfl, h1.symm ▸ rfl⟩
    simp only [Interval.join, if_pos heq, Interval.new, if_pos ha]

/-- Witness for C4 (amended) at a = (0,2,5), b = (2,4,7). -/
theorem join_spec_witness :
    ((0 : Int) < 2 ∧ (2 : Int) < 4) ∧
      Interval.join ⟨0, 2, 5⟩ ⟨2, 4, 7⟩ = ⟨min 0 2, max 2 4, 5⟩ :=
  ⟨by decide,
    (join_spec ⟨0, 2, 5⟩ ⟨2, 4, 7⟩ (by decide) (by decide)).1 (Or.inl (by decide))⟩

/-- C5 counterexample: (0,10) strictly contains (2,3); their closed ranges
intersect (both contain 2) yet `overlaps` returns false. -/
theorem overlaps_containment_cex :
    Interval.overlaps ⟨0, 10, 1⟩ ⟨2, 3, 1⟩ = false ∧
      Interval.contains ⟨0, 10, 1⟩ 2 = true ∧
      Interval.contains ⟨2, 3, 1⟩ 2 = true := by
  decide

/-- C5 (amended): for canonical intervals, `overlaps` returns true iff the two
closed ranges intersect in at least one point AND neither range strictly
contains the other (both endpoints strictly inside). -/
theorem overlaps_spec (a b : Interval) (ha : a.lb ≤ a.ub) (hb : b.lb ≤ b.ub) :
    a.overlaps b = true ↔
      (∃ x : Int, a.contains x = true ∧ b.contains x = true) ∧
        ¬ (a.lb < b.lb ∧ b.ub < a.ub) ∧ ¬ (b.lb < a.lb ∧ a.ub < b.ub) := by
  have hx : (∃ x : Int, a.contains x = true ∧ b.contains x = true) ↔
      (b.lb ≤ a.ub ∧ a.lb ≤ b.ub) := by
    constructor
    · rintro ⟨x, hxa, hxb⟩
      simp only [Interval.contains, Bool.and_eq_true, decide_eq_true_eq] at hxa hxb
      omega
    · rintro ⟨h1, h2⟩
      refine ⟨max a.lb b.lb, ?_, ?_⟩ <;>
        simp only [Interval.contains, Bool.and_eq_true, decide_eq_true_eq] <;> omega
  rw [hx]
  simp only [Interval.overlaps, Interval.left_overlaps, Interval.right_overlaps,
    Bool.or_eq_true, Bool.and_eq_true, decide_eq_true_eq]
  omega

/-- Witness for C5 (amended) at a = (0,2,1), b = (1,3,1). -/
theorem overlaps_spec_witness :
    ((0 : Int) ≤ 2 ∧ (1 : Int) ≤ 3) ∧
      Interval.overlaps ⟨0, 2, 1⟩ ⟨1, 3, 1⟩ = true :=
  ⟨by decide,
    (overlaps_spec ⟨0, 2, 1⟩ ⟨1, 3, 1⟩ (by decide) (by decide)).mpr
      ⟨⟨1, by decide, by decide⟩, by decide, by decide⟩⟩

/-- C6 counterexample: the collection [(0,1,2), (2,3,-2)] satisfies the
sorted-disjoint invariants, its only strictly-positive-weight interval does
not contain 3, yet the set view covers 3: negative-weight intervals do
contribute to `to_vec_as_set`. -/
theorem set_view_negative_weight_cex :
    (IntervalCollection.from_vec [⟨0, 1, 2⟩, ⟨2, 3, -2⟩]).to_vec_as_set =
        [⟨0, 1⟩, ⟨2, 3⟩] ∧
      List.Chain' (fun a b => a.ub ≤ b.lb)
        (IntervalCollection.from_vec [⟨0, 1, 2⟩, ⟨2, 3, -2⟩]).intervals ∧
      (∀ i ∈ (IntervalCollection.from_vec [⟨0, 1, 2⟩, ⟨2, 3, -2⟩]).intervals,
        i.lb < i.ub) ∧
      (∀ i ∈ (IntervalCollection.from_vec [⟨0, 1, 2⟩, ⟨2, 3, -2⟩]).intervals,
        0 < i.val → i.contains 3 = false) ∧
      (∃ b ∈ (IntervalCollection.from_vec [⟨0, 1, 2⟩, ⟨2, 3, -2⟩]).to_vec_as_set,
        b.contains 3 = true) := by
  refine ⟨by decide, ?_, by decide, by decide, ⟨⟨2, 3⟩, by decide, by decide⟩⟩
  simp [IntervalCollection.from_vec, List.chain'_cons]

/-! ### Characterization of `intervals_to_points` -/

theorem lsum_add (l : List α) (f g : α → Int) :
    (l.map (fun a => f a + g a)).sum = (l.map f).sum + (l.map g).sum := by
  induction l with
  | nil => simp
  | cons x xs ih => simp [ih]; ring

theorem lsum_sub (l : List α) (f g : α → Int) :
    (l.map (fun a => f a - g a)).sum = (l.map f).sum - (l.map g).sum := by
  induction l with
  | nil => simp
  | cons x xs ih => simp [ih]; ring

theorem lsum_neg (l : List α) (f : α → Int) :
    (l.map (fun a => -(f a))).sum = -(l.map f).sum := by
  induction l with
  | nil => simp
  | cons x xs ih => simp [ih]; ring

theorem lsum_zero_of_forall (l : List α) (f : α → Int) (h : ∀ a ∈ l, f a = 0) :
    (l.map f).sum = 0 := by
  induction l with
  | nil => simp
  | cons x xs ih =>
    simp only [List.map_cons, List.sum_cons, h x (List.mem_cons_self x xs),
      ih (fun a ha => h a (List.mem_cons_of_mem x ha)), add_zero]

theorem lsum_ite_of_mem (D : List Int) (a : Int) (w : Int → Int)
    (hnd : D.Nodup) (ha : a ∈ D) :
    (D.map (fun c => if a = c then w c else 0)).sum = w a := by
  induction D with
  | nil => cases ha
  | cons x xs ih =>
    rcases List.mem_cons.mp ha with rfl | hmem
    · have hnot : a ∉ xs := (List.nodup_cons.mp hnd).1
      have : (xs.map (fun c => if a = c then w c else 0)).sum = 0 :=
        lsum_zero_of_forall xs _ (fun c hc => by
          have : a ≠ c := fun h => hnot (h ▸ hc)
          simp [this])
      simp [this]
    · have hax : a ≠ x := by
        rintro rfl
        exact (List.nodup_cons.mp hnd).1 hmem
      simp [hax, ih (List.nodup_cons.mp hnd).2 hmem]

theorem lsum_swap (D : List Int) (x : List α) (F : α → Int → Int) :
    (D.map (fun c => (x.map (fun i => F i c)).sum)).sum =
      (x.map (fun i => (D.map (fun c => F i c)).sum)).sum := by
  induction D with
  | nil => simp
  | cons c cs ih =>
    simp only [List.map_cons, List.sum_cons, ih]
    rw [← lsum_add]

theorem pairwise_and_of {R S : α → α → Prop} :
    ∀ {l : List α}, l.Pairwise R → l.Pairwise S →
      l.Pairwise (fun a b => R a b ∧ S a b) := by
  intro l h1 h2
  induction h1 with
  | nil => exact List.Pairwise.nil
  | cons hhead _ ih =>
    cases h2 with
    | cons h2h h2t =>
      exact List.Pairwise.cons (fun b hb => ⟨hhead b hb, h2h b hb⟩) (ih h2t)

theorem mem_endpointCoords {x : List Interval} {i : Interval} (h : i ∈ x) :
    i.lb ∈ endpointCoords x ∧ i.ub ∈ endpointCoords x := by
  constructor <;>
    · rw [endpointCoords, List.mem_dedup, List.mem_flatMap]
      exact ⟨i, h, by simp⟩

theorem pointDelta_zero_of_not_endpoint {x : List Interval} {c : Int}
    (h : c ∉ endpointCoords x) : pointDelta x c = 0 := by
  apply lsum_zero_of_forall
  intro i hi
  have h1 : i.lb ≠ c := fun he => h (he ▸ (mem_endpointCoords hi).1)
  have h2 : i.ub ≠ c := fun he => h (he ▸ (mem_endpointCoords hi).2)
  simp [h1, h2]

theorem mem_rawPoints {x : List Interval} {p : Int × Int} :
    p ∈ rawPoints x ↔ pointDelta x p.1 = p.2 ∧ p.2 ≠ 0 := by
  rw [rawPoints, List.mem_filterMap]
  constructor
  · rintro ⟨c, _, hc⟩
    by_cases hd : pointDelta x c ≠ 0
    · rw [if_pos hd] at hc
      have hp : (c, pointDelta x c) = p := Option.some.inj hc
      rw [← hp]
      exact ⟨rfl, hd⟩
    · rw [if_neg hd] at hc
      cases hc
  · rintro ⟨hdelta, hne⟩
    refine ⟨p.1, ?_, ?_⟩
    · by_contra hmem
      exact hne (hdelta ▸ pointDelta_zero_of_not_endpoint hmem)
    · rw [if_pos (hdelta ▸ hne : pointDelta x p.1 ≠ 0), hdelta]

theorem map_fst_rawPoints (x : List Interval) :
    (rawPoints x).map Prod.fst =
      (endpointCoords x).filter (fun c => decide (pointDelta x c ≠ 0)) := by
  rw [rawPoints]
  induction endpointCoords x with
  | nil => simp
  | cons c cs ih =>
    rw [List.filterMap_cons, List.filter_cons]
    by_cases hd : pointDelta x c ≠ 0
    · rw [if_pos hd, if_pos (decide_eq_true hd), List.map_cons, ih]
    · rw [if_neg hd, if_neg (by simpa using hd), ih]

theorem rawPoints_fst_nodup (x : List Interval) :
    ((rawPoints x).map Prod.fst).Nodup := by
  rw [map_fst_rawPoints]
  exact (List.nodup_dedup _).filter _

theorem pts_perm (x : List Interval) :
    List.Perm (intervals_to_points x) (rawPoints x) :=
  List.perm_insertionSort coordLe (rawPoints x)

theorem pts_sorted (x : List Interval) :
    List.Sorted coordLe (intervals_to_points x) :=
  List.sorted_insertionSort coordLe (rawPoints x)

theorem mem_pts {x : List Interval} {p : Int × Int} :
    p ∈ intervals_to_points x ↔ pointDelta x p.1 = p.2 ∧ p.2 ≠ 0 := by
  rw [(pts_perm x).mem_iff, mem_rawPoints]

theorem pts_fst_nodup (x : List Interval) :
    ((intervals_to_points x).map Prod.fst).Nodup :=
  (((pts_perm x).map Prod.fst).nodup_iff).mpr (rawPoints_fst_nodup x)

theorem pts_nodup (x : List Interval) : (intervals_to_points x).Nodup :=
  List.Nodup.of_map Prod.fst (pts_fst_nodup x)

theorem pts_chain_le (x : List Interval) :
    List.Chain' coordLe (intervals_to_points x) :=
  (pts_sorted x).chain'

theorem pts_pairwise_lt (x : List Interval) :
    List.Pairwise coordLt (intervals_to_points x) := by
  have h1 : List.Pairwise coordLe (intervals_to_points x) := pts_sorted x
  have h2 : List.Pairwise (fun p q : Int × Int => p.1 ≠ q.1)
      (intervals_to_points x) := by
    have := pts_fst_nodup x
    rw [List.Nodup, List.pairwise_map] at this
    exact this
  exact (pairwise_and_of h1 h2).imp (fun h => lt_of_le_of_ne h.1 h.2)

/-! ### The generalized endpoint-sum identity -/

theorem sum_rawPoints_eval (x : List Interval) (g : Int × Int → Int)
    (hg : ∀ c, g (c, 0) = 0) :
    ((rawPoints x).map g).sum =
      ((endpointCoords x).map (fun c => g (c, pointDelta x c))).sum := by
  rw [rawPoints]
  induction endpointCoords x with
  | nil => simp
  | cons c cs ih =>
    rw [List.filterMap_cons, List.map_cons, List.sum_cons]
    by_cases hd : pointDelta x c ≠ 0
    · rw [if_pos hd, List.map_cons, List.sum_cons, ih]
    · rw [if_neg hd, ih]
      simp only [not_not] at hd
      rw [hd, hg c, zero_add]

theorem sum_pts_mul (x : List Interval) (h : Int → Int) :
    ((intervals_to_points x).map (fun p => p.2 * h p.1)).sum =
      (x.map (fun i => i.val * (h i.lb - h i.ub))).sum := by
  have hperm := ((pts_perm x).map (fun p => p.2 * h p.1)).sum_eq
  rw [hperm, sum_rawPoints_eval x _ (fun c => by simp)]
  have step1 : ((endpointCoords x).map
      (fun c => pointDelta x c * h c)).sum =
      ((endpointCoords x).map (fun c =>
        (x.map (fun i =>
          ((if i.lb = c then i.val else 0) -
            (if i.ub = c then i.val else 0)) * h c)).sum)).sum := by
    apply congrArg
    apply List.map_congr_left
    intro c _
    rw [pointDelta, List.sum_map_mul_right]
  rw [step1, lsum_swap]
  apply congrArg
  apply List.map_congr_left
  intro i hi
  have hfun : (fun c => ((if i.lb = c then i.val else 0) -
      (if i.ub = c then i.val else 0)) * h c) =
      (fun c => (if i.lb = c then i.val * h c else 0) -
        (if i.ub = c then i.val * h c else 0)) := by
    funext c
    split_ifs <;> ring
  have hnd : (endpointCoords x).Nodup := by
    rw [endpointCoords]
    exact List.nodup_dedup _
  rw [hfun, lsum_sub,
    lsum_ite_of_mem (endpointCoords x) i.lb (fun c => i.val * h c) hnd
      (mem_endpointCoords hi).1,
    lsum_ite_of_mem (endpointCoords x) i.ub (fun c => i.val * h c) hnd
      (mem_endpointCoords hi).2]
  ring

theorem sum_pts_snd (x : List Interval) :
    ((intervals_to_points x).map Prod.snd).sum = 0 := by
  have h1 := sum_pts_mul x (fun _ => 1)
  simp only [mul_one, sub_self, mul_zero] at h1
  rw [show (Prod.snd : Int × Int → Int) = fun p => p.2 from rfl, h1]
  exact lsum_zero_of_forall _ _ (fun _ _ => rfl)

theorem sum_pts_id (x : List Interval) :
    ((intervals_to_points x).map (fun p => p.2 * p.1)).sum =
      (x.map (fun i => i.val * (i.lb - i.ub))).sum := by
  have := sum_pts_mul x (fun t => t)
  simpa using this

/-! ### The emission loop: total value and disjointness -/

theorem new_eq_of_le {c1 c2 : Int} (h : c1 ≤ c2) (v : Int) :
    Interval.new c1 c2 v = ⟨c1, c2, v⟩ := by
  rw [Interval.new]
  split_ifs with hgt
  · rfl
  · have : c1 = c2 := le_antisymm h (le_of_not_lt hgt)
    rw [this]

theorem tvList_append (l1 l2 : List Interval) :
    tvList (l1 ++ l2) = tvList l1 + tvList l2 := by
  rw [tvList, tvList, tvList, List.map_append, List.sum_append]

theorem lastFst_cons_cons (p q : Int × Int) (l : List (Int × Int)) :
    lastFst (p :: q :: l) = lastFst (q :: l) := by
  rw [lastFst, lastFst, List.getLast?_cons_cons]

theorem emit_cumsum_cons_cons (c1 d1 c2 d2 a : Int) (rest : List (Int × Int)) :
    emitIntervals (cumsum a ((c1, d1) :: (c2, d2) :: rest)) =
      (if a + d1 ≠ 0 then [Interval.new c1 c2 (a + d1)] else []) ++
        emitIntervals (cumsum (a + d1) ((c2, d2) :: rest)) := by
  rw [cumsum, cumsum, emitIntervals, ← cumsum]

theorem emit_tv :
    ∀ (tail : List (Int × Int)) (c1 d1 a : Int),
      List.Chain' coordLe ((c1, d1) :: tail) →
      tvList (emitIntervals (cumsum a ((c1, d1) :: tail))) =
        a * (lastFst ((c1, d1) :: tail) - c1) +
          (((c1, d1) :: tail).map
            (fun p => p.2 * (lastFst ((c1, d1) :: tail) - p.1))).sum := by
  intro tail
  induction tail with
  | nil =>
    intro c1 d1 a _
    simp only [cumsum, emitIntervals, tvList, List.map_nil, List.sum_nil,
      lastFst, List.getLast?_singleton, Option.map_some', Option.getD_some,
      List.map_cons, List.sum_cons]
    ring
  | cons p2 rest ih =>
    obtain ⟨c2, d2⟩ := p2
    intro c1 d1 a hchain
    have h12 : c1 ≤ c2 := (List.chain'_cons.mp hchain).1
    have hchain2 : List.Chain' coordLe ((c2, d2) :: rest) :=
      (List.chain'_cons.mp hchain).2
    rw [emit_cumsum_cons_cons, tvList_append, ih c2 d2 (a + d1) hchain2,
      lastFst_cons_cons]
    have hhead : tvList (if a + d1 ≠ 0 then [Interval.new c1 c2 (a + d1)] else []) =
        (c2 - c1) * (a + d1) := by
      split_ifs with hz
      · rw [tvList, new_eq_of_le h12, List.map_singleton, List.sum_singleton]
        rfl
      · simp only [not_not] at hz
        rw [hz, mul_zero, tvList, List.map_nil, List.sum_nil]
    rw [hhead]
    simp only [List.map_cons, List.sum_cons]
    ring

theorem emit_lb_ge :
    ∀ (tail : List (Int × Int)) (c1 d1 a : Int),
      List.Chain' coordLe ((c1, d1) :: tail) →
      ∀ i ∈ emitIntervals (cumsum a ((c1, d1) :: tail)), c1 ≤ i.lb := by
  intro tail
  induction tail with
  | nil =>
    intro c1 d1 a _ i hi
    rw [cumsum, cumsum, emitIntervals] at hi
    cases hi
  | cons p2 rest ih =>
    obtain ⟨c2, d2⟩ := p2
    intro c1 d1 a hchain i hi
    have h12 : c1 ≤ c2 := (List.chain'_cons.mp hchain).1
    have hchain2 : List.Chain' coordLe ((c2, d2) :: rest) :=
      (List.chain'_cons.mp hchain).2
    rw [emit_cumsum_cons_cons] at hi
    rcases List.mem_append.mp hi with h | h
    · split_ifs at h with hz
      · rcases List.mem_singleton.mp h with rfl
        rw [new_eq_of_le h12]
      · cases h
    · exact le_trans h12 (ih c2 d2 (a + d1) hchain2 i h)

theorem emit_chain :
    ∀ (l : List (Int × Int)) (a : Int), List.Chain' coordLe l →
      List.Chain' (fun i j : Interval => i.ub ≤ j.lb)
        (emitIntervals (cumsum a l)) := by
  intro l
  induction l with
  | nil =>
    intro a _
    rw [cumsum, emitIntervals]
    exact List.chain'_nil
  | cons p tail ih =>
    obtain ⟨c1, d1⟩ := p
    cases tail with
    | nil =>
      intro a _
      rw [cumsum, cumsum, emitIntervals]
      exact List.chain'_nil
    | cons p2 rest =>
      obtain ⟨c2, d2⟩ := p2
      intro a hchain
      have h12 : c1 ≤ c2 := (List.chain'_cons.mp hchain).1
      have hchain2 : List.Chain' coordLe ((c2, d2) :: rest) :=
        (List.chain'_cons.mp hchain).2
      have hrest := ih (a + d1) hchain2
      rw [emit_cumsum_cons_cons]
      split_ifs with hz
      · rw [List.singleton_append]
        apply List.chain'_cons'.mpr
        refine ⟨?_, hrest⟩
        intro y hy
        have hmem : y ∈ emitIntervals (cumsum (a + d1) ((c2, d2) :: rest)) :=
          List.mem_of_mem_head? hy
        have hylb := emit_lb_ge rest c2 d2 (a + d1) hchain2 y hmem
        rw [new_eq_of_le h12]
        exact hylb
      · rw [List.nil_append]
        exact hrest

/-! ### C2 and C3 -/

/-- C2: conservation — the total value of the combined collection equals the
sum over the input intervals of width times weight. -/
theorem conservation (x : List Interval) :
    (combine_intervals x).total_value =
      (x.map (fun i => (i.ub - i.lb) * i.val)).sum := by
  have hstep1 : (combine_intervals x).total_value =
      ((intervals_to_points x).map
        (fun p => p.2 * (lastFst (intervals_to_points x) - p.1))).sum := by
    cases hpts : intervals_to_points x with
    | nil =>
      rw [combine_intervals, hpts]
      rw [show (IntervalCollection.from_vec
          (emitIntervals (cumsum 0 []))).total_value = 0 from rfl]
      rw [List.map_nil, List.sum_nil]
    | cons p tail =>
      obtain ⟨c1, d1⟩ := p
      have hchain : List.Chain' coordLe ((c1, d1) :: tail) := by
        rw [← hpts]
        exact pts_chain_le x
      have htv := emit_tv tail c1 d1 0 hchain
      rw [combine_intervals]
      rw [show (IntervalCollection.from_vec
          (emitIntervals (cumsum 0 (intervals_to_points x)))).total_value =
          tvList (emitIntervals (cumsum 0 (intervals_to_points x))) from rfl]
      rw [hpts, htv, zero_mul, zero_add]
  rw [hstep1]
  have hL : ∀ L : Int,
      ((intervals_to_points x).map (fun p => p.2 * (L - p.1))).sum =
        L * ((intervals_to_points x).map Prod.snd).sum -
          ((intervals_to_points x).map (fun p => p.2 * p.1)).sum := by
    intro L
    have hfun : (fun p : Int × Int => p.2 * (L - p.1)) =
        (fun p : Int × Int => p.2 * L - p.2 * p.1) := by
      funext p
      ring
    rw [hfun, lsum_sub, List.sum_map_mul_right]
    rw [show ((intervals_to_points x).map (fun p : Int × Int => p.2)) =
        (intervals_to_points x).map Prod.snd from rfl]
    ring
  rw [hL, sum_pts_snd, sum_pts_id, mul_zero, zero_sub]
  rw [show (x.map (fun i => (i.ub - i.lb) * i.val)) =
      x.map (fun i => -(i.val * (i.lb - i.ub))) from by
    apply List.map_congr_left
    intro i _
    ring]
  rw [lsum_neg]

/-- C3: disjoint sorted output — in any combined collection, every adjacent
pair (a, b) of intervals satisfies a.ub ≤ b.lb. -/
theorem disjoint_sorted_output (x : List Interval) :
    List.Chain' (fun a b : Interval => a.ub ≤ b.lb)
      (combine_intervals x).intervals :=
  emit_chain (intervals_to_points x) 0 (pts_chain_le x)

/-! ### The set view walk -/

theorem base_new_eq_of_le {c1 c2 : Int} (h : c1 ≤ c2) :
    BaseInterval.new c1 c2 = ⟨c1, c2⟩ := by
  rw [BaseInterval.new]
  split_ifs with hgt
  · rfl
  · have : c1 = c2 := le_antisymm h (le_of_not_lt hgt)
    rw [this]

theorem to_base_eq {i : Interval} (h : i.lb ≤ i.ub) : i.to_base = ⟨i.lb, i.ub⟩ := by
  rw [Interval.to_base, base_new_eq_of_le h]

theorem can_join_as_set_iff_touch {cur next : Interval} (hcur : cur.lb < cur.ub)
    (hnext : next.lb < next.ub) (hle : cur.ub ≤ next.lb) :
    cur.can_join_as_set next = true ↔ cur.ub = next.lb := by
  simp only [Interval.can_join_as_set, Interval.overlaps, Interval.left_overlaps,
    Interval.right_overlaps, Bool.or_eq_true, Bool.and_eq_true, decide_eq_true_eq]
  omega

theorem join_ign_touch {cur next : Interval} (hcur : cur.lb < cur.ub)
    (hnext : next.lb < next.ub) (htouch : cur.ub = next.lb) :
    cur.join_ign_value next = ⟨cur.lb, next.ub, 1⟩ := by
  rw [Interval.join_ign_value, if_pos (by omega : cur.lb < next.lb),
    if_neg (by omega : ¬ cur.ub > next.ub), new_eq_of_le (by omega)]

theorem set_walk_cover :
    ∀ (l : List Interval) (cur : Interval), cur.lb < cur.ub →
      (∀ i ∈ l, i.lb < i.ub) →
      List.Chain' (fun a b : Interval => a.ub ≤ b.lb) (cur :: l) →
      ∀ x : Int, (∃ b ∈ set_walk cur l, b.contains x = true) ↔
        (cur.contains x = true ∨ ∃ i ∈ l, i.contains x = true) := by
  intro l
  induction l with
  | nil =>
    intro cur hcur _ _ x
    rw [set_walk]
    simp [to_base_eq (le_of_lt hcur), BaseInterval.contains, Interval.contains]
  | cons next rest ih =>
    intro cur hcur hl hchain x
    have hlink : cur.ub ≤ next.lb := (List.chain'_cons.mp hchain).1
    have hchain2 : List.Chain' (fun a b : Interval => a.ub ≤ b.lb) (next :: rest) :=
      (List.chain'_cons.mp hchain).2
    have hnext : next.lb < next.ub := hl next (List.mem_cons_self next rest)
    have hrest : ∀ i ∈ rest, i.lb < i.ub :=
      fun i hi => hl i (List.mem_cons_of_mem next hi)
    by_cases hj : cur.can_join_as_set next = true
    · have htouch : cur.ub = next.lb :=
        (can_join_as_set_iff_touch hcur hnext hlink).mp hj
      rw [set_walk, if_pos hj, join_ign_touch hcur hnext htouch]
      have hcur2 : (⟨cur.lb, next.ub, 1⟩ : Interval).lb <
          (⟨cur.lb, next.ub, 1⟩ : Interval).ub := by
        show cur.lb < next.ub
        omega
      have hchain3 : List.Chain' (fun a b : Interval => a.ub ≤ b.lb)
          ((⟨cur.lb, next.ub, 1⟩ : Interval) :: rest) := by
        apply List.chain'_cons'.mpr
        exact ⟨fun y hy => (List.chain'_cons'.mp hchain2).1 y hy,
          (List.chain'_cons'.mp hchain2).2⟩
      rw [ih _ hcur2 hrest hchain3 x]
      have hsplit : (⟨cur.lb, next.ub, 1⟩ : Interval).contains x = true ↔
          (cur.contains x = true ∨ next.contains x = true) := by
        simp only [Interval.contains, Bool.and_eq_true, decide_eq_true_eq]
        omega
      rw [hsplit]
      simp only [List.mem_cons]
      constructor
      · rintro ((h | h) | ⟨i, hi, h⟩)
        · exact Or.inl h
        · exact Or.inr ⟨next, Or.inl rfl, h⟩
        · exact Or.inr ⟨i, Or.inr hi, h⟩
      · rintro (h | ⟨i, (rfl | hi), h⟩)
        · exact Or.inl (Or.inl h)
        · exact Or.inl (Or.inr h)
        · exact Or.inr ⟨i, hi, h⟩
    · rw [set_walk, if_neg hj]
      rw [to_base_eq (le_of_lt hcur)]
      have hcov : ∀ b', (∃ b ∈ (⟨cur.lb, cur.ub⟩ : BaseInterval) ::
          set_walk next rest, b.contains b' = true) ↔
          ((⟨cur.lb, cur.ub⟩ : BaseInterval).contains b' = true ∨
            ∃ b ∈ set_walk next rest, b.contains b' = true) := by
        intro b'
        simp [List.mem_cons]
      rw [hcov, ih next hnext hrest hchain2 x]
      have hcc : (⟨cur.lb, cur.ub⟩ : BaseInterval).contains x = true ↔
          cur.contains x = true := by
        simp [BaseInterval.contains, Interval.contains]
      rw [hcc]
      simp only [List.mem_cons]
      constructor
      · rintro (h | h | ⟨i, hi, h⟩)
        · exact Or.inl h
        · exact Or.inr ⟨next, Or.inl rfl, h⟩
        · exact Or.inr ⟨i, Or.inr hi, h⟩
      · rintro (h | ⟨i, (rfl | hi), h⟩)
        · exact Or.inl h
        · exact Or.inr (Or.inl h)
        · exact Or.inr (Or.inr ⟨i, hi, h⟩)

theorem set_walk_head_lb :
    ∀ (l : List Interval) (cur : Interval), cur.lb < cur.ub →
      (∀ i ∈ l, i.lb < i.ub) →
      List.Chain' (fun a b : Interval => a.ub ≤ b.lb) (cur :: l) →
      ∀ b ∈ (set_walk cur l).head?, b.lb = cur.lb := by
  intro l
  induction l with
  | nil =>
    intro cur hcur _ _ b hb
    rw [set_walk, to_base_eq (le_of_lt hcur)] at hb
    cases hb
    rfl
  | cons next rest ih =>
    intro cur hcur hl hchain b hb
    have hlink : cur.ub ≤ next.lb := (List.chain'_cons.mp hchain).1
    have hchain2 : List.Chain' (fun a b : Interval => a.ub ≤ b.lb) (next :: rest) :=
      (List.chain'_cons.mp hchain).2
    have hnext : next.lb < next.ub := hl next (List.mem_cons_self next rest)
    have hrest : ∀ i ∈ rest, i.lb < i.ub :=
      fun i hi => hl i (List.mem_cons_of_mem next hi)
    by_cases hj : cur.can_join_as_set next = true
    · have htouch : cur.ub = next.lb :=
        (can_join_as_set_iff_touch hcur hnext hlink).mp hj
      rw [set_walk, if_pos hj, join_ign_touch hcur hnext htouch] at hb
      have hcur2 : (⟨cur.lb, next.ub, 1⟩ : Interval).lb <
          (⟨cur.lb, next.ub, 1⟩ : Interval).ub := by
        show cur.lb < next.ub
        omega
      have hchain3 : List.Chain' (fun a b : Interval => a.ub ≤ b.lb)
          ((⟨cur.lb, next.ub, 1⟩ : Interval) :: rest) := by
        apply List.chain'_cons'.mpr
        exact ⟨fun y hy => (List.chain'_cons'.mp hchain2).1 y hy,
          (List.chain'_cons'.mp hchain2).2⟩
      exact ih _ hcur2 hrest hchain3 b hb
    · rw [set_walk, if_neg hj, to_base_eq (le_of_lt hcur)] at hb
      cases hb
      rfl

theorem set_walk_chain :
    ∀ (l : List Interval) (cur : Interval), cur.lb < cur.ub →
      (∀ i ∈ l, i.lb < i.ub) →
      List.Chain' (fun a b : Interval => a.ub ≤ b.lb) (cur :: l) →
      List.Chain' (fun a b : BaseInterval => a.ub < b.lb) (set_walk cur l) := by
  intro l
  induction l with
  | nil =>
    intro cur _ _ _
    rw [set_walk]
    exact List.chain'_singleton _
  | cons next rest ih =>
    intro cur hcur hl hchain
    have hlink : cur.ub ≤ next.lb := (List.chain'_cons.mp hchain).1
    have hchain2 : List.Chain' (fun a b : Interval => a.ub ≤ b.lb) (next :: rest) :=
      (List.chain'_cons.mp hchain).2
    have hnext : next.lb < next.ub := hl next (List.mem_cons_self next rest)
    have hrest : ∀ i ∈ rest, i.lb < i.ub :=
      fun i hi => hl i (List.mem_cons_of_mem next hi)
    by_cases hj : cur.can_join_as_set next = true
    · have htouch : cur.ub = next.lb :=
        (can_join_as_set_iff_touch hcur hnext hlink).mp hj
      rw [set_walk, if_pos hj, join_ign_touch hcur hnext htouch]
      have hcur2 : (⟨cur.lb, next.ub, 1⟩ : Interval).lb <
          (⟨cur.lb, next.ub, 1⟩ : Interval).ub := by
        show cur.lb < next.ub
        omega
      have hchain3 : List.Chain' (fun a b : Interval => a.ub ≤ b.lb)
          ((⟨cur.lb, next.ub, 1⟩ : Interval) :: rest) := by
        apply List.chain'_cons'.mpr
        exact ⟨fun y hy => (List.chain'_cons'.mp hchain2).1 y hy,
          (List.chain'_cons'.mp hchain2).2⟩
      exact ih _ hcur2 hrest hchain3
    · have hne : cur.ub ≠ next.lb :=
        fun h => hj ((can_join_as_set_iff_touch hcur hnext hlink).mpr h)
      rw [set_walk, if_neg hj]
      apply List.chain'_cons'.mpr
      refine ⟨?_, ih next hnext hrest hchain2⟩
      intro y hy
      have hylb : y.lb = next.lb := set_walk_head_lb rest next hnext hrest hchain2 y hy
      rw [to_base_eq (le_of_lt hcur)]
      show cur.ub < y.lb
      omega

/-- C6 (amended): for every collection satisfying the sorted-disjoint
invariants, the set view covers a point exactly when some interval of the
collection covers it — regardless of the sign of the weights — and its
entries are ordered with strict gaps (so no further merge is possible). -/
theorem set_view_spec (c : IntervalCollection)
    (hchain : List.Chain' (fun a b : Interval => a.ub ≤ b.lb) c.intervals)
    (hw : ∀ i ∈ c.intervals, i.lb < i.ub) :
    (∀ x : Int, (∃ b ∈ c.to_vec_as_set, b.contains x = true) ↔
        (∃ i ∈ c.intervals, i.contains x = true)) ∧
      List.Chain' (fun a b : BaseInterval => a.ub < b.lb) c.to_vec_as_set := by
  obtain ⟨l⟩ := c
  cases l with
  | nil =>
    constructor
    · intro x
      simp [IntervalCollection.to_vec_as_set]
    · rw [IntervalCollection.to_vec_as_set]
      exact List.chain'_nil
  | cons first rest =>
    have hfirst : first.lb < first.ub :=
      hw first (List.mem_cons_self first rest)
    have hrest : ∀ i ∈ rest, i.lb < i.ub :=
      fun i hi => hw i (List.mem_cons_of_mem first hi)
    have hwalk : (IntervalCollection.mk (first :: rest)).to_vec_as_set =
        set_walk first rest := rfl
    constructor
    · intro x
      rw [hwalk, set_walk_cover rest first hfirst hrest hchain x]
      simp only [List.mem_cons]
      constructor
      · rintro (h | ⟨i, hi, h⟩)
        · exact ⟨first, Or.inl rfl, h⟩
        · exact ⟨i, Or.inr hi, h⟩
      · rintro ⟨i, (rfl | hi), h⟩
        · exact Or.inl h
        · exact Or.inr ⟨i, hi, h⟩
    · rw [hwalk]
      exact set_walk_chain rest first hfirst hrest hchain

/-- Witness for C6 (amended) at the collection [(0,1,2), (2,3,-2)] and the
point 2. -/
theorem set_view_spec_witness :
    (List.Chain' (fun a b : Interval => a.ub ≤ b.lb)
        (IntervalCollection.from_vec [⟨0, 1, 2⟩, ⟨2, 3, -2⟩]).intervals ∧
      (∀ i ∈ (IntervalCollection.from_vec [⟨0, 1, 2⟩, ⟨2, 3, -2⟩]).intervals,
        i.lb < i.ub)) ∧
      ((∃ b ∈ (IntervalCollection.from_vec [⟨0, 1, 2⟩, ⟨2, 3, -2⟩]).to_vec_as_set,
          b.contains 2 = true) ↔
        (∃ i ∈ (IntervalCollection.from_vec [⟨0, 1, 2⟩, ⟨2, 3, -2⟩]).intervals,
          i.contains 2 = true)) ∧
      List.Chain' (fun a b : BaseInterval => a.ub < b.lb)
        (IntervalCollection.from_vec [⟨0, 1, 2⟩, ⟨2, 3, -2⟩]).to_vec_as_set := by
  have h1 : List.Chain' (fun a b : Interval => a.ub ≤ b.lb)
      (IntervalCollection.from_vec [⟨0, 1, 2⟩, ⟨2, 3, -2⟩]).intervals := by
    simp [IntervalCollection.from_vec, List.chain'_cons]
  have h2 : ∀ i ∈ (IntervalCollection.from_vec [⟨0, 1, 2⟩, ⟨2, 3, -2⟩]).intervals,
      i.lb < i.ub := by decide
  exact ⟨⟨h1, h2⟩,
    (set_view_spec (IntervalCollection.from_vec [⟨0, 1, 2⟩, ⟨2, 3, -2⟩]) h1 h2).1 2,
    (set_view_spec (IntervalCollection.from_vec [⟨0, 1, 2⟩, ⟨2, 3, -2⟩]) h1 h2).2⟩

/-! ### The coverage variant -/

theorem cumsum_fst : ∀ (a : Int) (l : List (Int × Int)),
    (cumsum a l).map Prod.fst = l.map Prod.fst := by
  intro a l
  induction l generalizing a with
  | nil => rw [cumsum]
  | cons p rest ih =>
    obtain ⟨c, d⟩ := p
    rw [cumsum, List.map_cons, List.map_cons, ih (a + d)]

theorem cumsum_chain (a : Int) (l : List (Int × Int))
    (h : List.Chain' coordLe l) : List.Chain' coordLe (cumsum a l) := by
  have h1 : List.Chain' (fun x y : Int => x ≤ y) (l.map Prod.fst) := by
    rw [List.chain'_map]
    exact h
  have h2 : List.Chain' (fun x y : Int => x ≤ y) ((cumsum a l).map Prod.fst) := by
    rw [cumsum_fst]
    exact h1
  rw [List.chain'_map] at h2
  exact h2

theorem setEmit_cons_cons (out : List BaseInterval)
    (c1 v1 c2 v2 : Int) (rest : List (Int × Int)) :
    setEmit out ((c1, v1) :: (c2, v2) :: rest) =
      setEmit
        (if v1 > 0 then
          (match out.getLast? with
            | none => out ++ [BaseInterval.new c1 c2]
            | some x =>
              if x.ub = c1 then out.dropLast ++ [BaseInterval.new x.lb c2]
              else out ++ [BaseInterval.new c1 c2])
          else out) ((c2, v2) :: rest) :=
  rfl

theorem mergeStep_eval (out : List BaseInterval) (c1 c2 : Int) (h : c1 ≤ c2) :
    (match out.getLast? with
      | none => out ++ [BaseInterval.new c1 c2]
      | some x =>
        if x.ub = c1 then out.dropLast ++ [BaseInterval.new x.lb c2]
        else out ++ [BaseInterval.new c1 c2]) =
      specMergeStep out (BaseInterval.new c1 c2) := by
  rw [specMergeStep, base_new_eq_of_le h]

theorem setEmit_eq_foldl :
    ∀ (pts : List (Int × Int)) (out : List BaseInterval),
      List.Chain' coordLe pts →
      setEmit out pts = List.foldl specMergeStep out (specPosSegments pts) := by
  intro pts
  induction pts with
  | nil =>
    intro out _
    rw [setEmit, specPosSegments, List.foldl_nil]
  | cons p tail ih =>
    obtain ⟨c1, v1⟩ := p
    cases tail with
    | nil =>
      intro out _
      rw [setEmit, specPosSegments, List.foldl_nil]
    | cons p2 rest =>
      obtain ⟨c2, v2⟩ := p2
      intro out hchain
      have h12 : c1 ≤ c2 := (List.chain'_cons.mp hchain).1
      have hchain2 : List.Chain' coordLe ((c2, v2) :: rest) :=
        (List.chain'_cons.mp hchain).2
      rw [setEmit_cons_cons, specPosSegments, List.foldl_append]
      by_cases hv : v1 > 0
      · rw [if_pos hv, if_pos hv, mergeStep_eval out c1 c2 h12,
          List.foldl_cons, List.foldl_nil]
        exact ih (specMergeStep out (BaseInterval.new c1 c2)) hchain2
      · rw [if_neg hv, if_neg hv, List.foldl_nil]
        exact ih out hchain2

/-- C7: the coverage variant emits a segment between consecutive surviving
coordinates exactly when the cumulative weight at the lower coordinate is
strictly positive, and merges an emitted segment with the previously emitted
interval exactly when its lower bound equals the prior emitted upper bound
(`specPosSegments` / `specMergeStep` transcribe that description); on the
literal scenario the result is the single plain interval (0,3). -/
theorem combine_as_set_spec :
    (∀ x : List Interval, combine_as_set x =
        List.foldl specMergeStep []
          (specPosSegments (cumsum 0 (intervals_to_points x)))) ∧
      combine_as_set [Interval.new 0 2 1, Interval.new 1 3 2] =
        [BaseInterval.new 0 3] := by
  constructor
  · intro x
    exact setEmit_eq_foldl (cumsum 0 (intervals_to_points x)) []
      (cumsum_chain 0 (intervals_to_points x) (pts_chain_le x))
  · decide

/-! ### Idempotence -/

theorem pointDelta_nil (c : Int) : pointDelta [] c = 0 :=
  rfl

theorem pointDelta_cons (i : Interval) (l : List Interval) (c : Int) :
    pointDelta (i :: l) c =
      ((if i.lb = c then i.val else 0) - (if i.ub = c then i.val else 0)) +
        pointDelta l c := by
  rw [pointDelta, List.map_cons, List.sum_cons, pointDelta]

theorem pointDelta_append (l1 l2 : List Interval) (c : Int) :
    pointDelta (l1 ++ l2) c = pointDelta l1 c + pointDelta l2 c := by
  rw [pointDelta, List.map_append, List.sum_append, pointDelta, pointDelta]

theorem deltaOf_cons (p : Int × Int) (l : List (Int × Int)) (c : Int) :
    deltaOf (p :: l) c = (if p.1 = c then p.2 else 0) + deltaOf l c := by
  rw [deltaOf, List.map_cons, List.sum_cons, deltaOf]

theorem emit_pointDelta :
    ∀ (tail : List (Int × Int)) (c1 d1 a c : Int),
      List.Chain' coordLe ((c1, d1) :: tail) →
      pointDelta (emitIntervals (cumsum a ((c1, d1) :: tail))) c =
        deltaOf ((c1, d1) :: tail) c + (if c1 = c then a else 0) -
          (if lastFst ((c1, d1) :: tail) = c then
            a + (((c1, d1) :: tail).map Prod.snd).sum else 0) := by
  intro tail
  induction tail with
  | nil =>
    intro c1 d1 a c _
    rw [cumsum, cumsum, emitIntervals, pointDelta_nil, deltaOf_cons,
      show deltaOf [] c = 0 from rfl, lastFst]
    simp only [List.getLast?_singleton, Option.map_some', Option.getD_some,
      List.map_cons, List.map_nil, List.sum_cons, List.sum_nil]
    split_ifs with h1 <;> ring
  | cons p2 rest ih =>
    obtain ⟨c2, d2⟩ := p2
    intro c1 d1 a c hchain
    have h12 : c1 ≤ c2 := (List.chain'_cons.mp hchain).1
    have hchain2 : List.Chain' coordLe ((c2, d2) :: rest) :=
      (List.chain'_cons.mp hchain).2
    rw [emit_cumsum_cons_cons, pointDelta_append, ih c2 d2 (a + d1) c hchain2,
      lastFst_cons_cons]
    have hhead : pointDelta
        (if a + d1 ≠ 0 then [Interval.new c1 c2 (a + d1)] else []) c =
        (if c1 = c then a + d1 else 0) - (if c2 = c then a + d1 else 0) := by
      by_cases hz : a + d1 ≠ 0
      · rw [if_pos hz, new_eq_of_le h12, pointDelta_cons, pointDelta_nil, add_zero]
      · rw [if_neg hz]
        have hz0 : a + d1 = 0 := not_not.mp hz
        rw [pointDelta_nil, hz0]
        simp
    rw [hhead]
    simp only [deltaOf_cons, List.map_cons, List.sum_cons]
    split_ifs <;> ring

theorem deltaOf_eq_of_mem :
    ∀ (l : List (Int × Int)) (c v : Int), (l.map Prod.fst).Nodup →
      (c, v) ∈ l → deltaOf l c = v := by
  intro l
  induction l with
  | nil =>
    intro c v _ hmem
    cases hmem
  | cons p rest ih =>
    intro c v hnd hmem
    have hnd2 : (rest.map Prod.fst).Nodup := (List.nodup_cons.mp hnd).2
    have hnotin : p.1 ∉ rest.map Prod.fst := (List.nodup_cons.mp hnd).1
    rw [deltaOf_cons]
    rcases List.mem_cons.mp hmem with rfl | hmem2
    · have hzero : deltaOf rest c = 0 := by
        apply lsum_zero_of_forall
        intro q hq
        have : q.1 ≠ (c, v).1 := by
          intro he
          exact hnotin (he ▸ List.mem_map_of_mem Prod.fst hq)
        simp [this]
      rw [hzero, if_pos rfl, add_zero]
    · have hne : p.1 ≠ c := by
        intro he
        apply hnotin
        rw [he]
        exact List.mem_map_of_mem Prod.fst hmem2
      rw [if_neg hne, ih c v hnd2 hmem2, zero_add]

theorem pointDelta_eq_deltaOf (x : List Interval) (c : Int) :
    pointDelta x c = deltaOf (intervals_to_points x) c := by
  by_cases h : pointDelta x c = 0
  · rw [h, deltaOf]
    symm
    apply lsum_zero_of_forall
    intro p hp
    obtain ⟨hd, hne⟩ := mem_pts.mp hp
    by_cases hpc : p.1 = c
    · exact absurd (hpc ▸ hd : pointDelta x c = p.2) (fun he => hne (he ▸ h))
    · simp [hpc]
  · exact (deltaOf_eq_of_mem (intervals_to_points x) c (pointDelta x c)
      (pts_fst_nodup x) (mem_pts.mpr ⟨rfl, h⟩)).symm

theorem combine_pointDelta (x : List Interval) (c : Int) :
    pointDelta ((combine_intervals x).to_vec) c = pointDelta x c := by
  rw [show (combine_intervals x).to_vec =
      emitIntervals (cumsum 0 (intervals_to_points x)) from rfl]
  cases hpts : intervals_to_points x with
  | nil =>
    rw [cumsum, emitIntervals, pointDelta_nil, pointDelta_eq_deltaOf x c, hpts]
    rfl
  | cons p tail =>
    obtain ⟨c1, d1⟩ := p
    have hchain : List.Chain' coordLe ((c1, d1) :: tail) := by
      rw [← hpts]
      exact pts_chain_le x
    have hsum : (((c1, d1) :: tail).map Prod.snd).sum = 0 := by
      rw [← hpts]
      exact sum_pts_snd x
    rw [emit_pointDelta tail c1 d1 0 c hchain, hsum,
      pointDelta_eq_deltaOf x c, hpts]
    simp

theorem pts_eq_of_delta_eq (x y : List Interval)
    (h : ∀ c, pointDelta x c = pointDelta y c) :
    intervals_to_points x = intervals_to_points y := by
  have hmem : ∀ p : Int × Int, p ∈ intervals_to_points x ↔
      p ∈ intervals_to_points y := by
    intro p
    rw [mem_pts, mem_pts, h p.1]
  have hperm : List.Perm (intervals_to_points x) (intervals_to_points y) :=
    (List.perm_ext_iff_of_nodup (pts_nodup x) (pts_nodup y)).mpr hmem
  exact List.eq_of_perm_of_sorted hperm (pts_pairwise_lt x) (pts_pairwise_lt y)

/-- C8: idempotence — converting a combined collection back to a sequence and
combining again returns the same collection. -/
theorem combine_idempotent (x : List Interval) :
    combine_intervals ((combine_intervals x).to_vec) = combine_intervals x := by
  have h := pts_eq_of_delta_eq ((combine_intervals x).to_vec) x (combine_pointDelta x)
  calc combine_intervals ((combine_intervals x).to_vec)
      = IntervalCollection.from_vec (emitIntervals (cumsum 0
          (intervals_to_points ((combine_intervals x).to_vec)))) := rfl
    _ = IntervalCollection.from_vec (emitIntervals (cumsum 0
          (intervals_to_points x))) := by rw [h]
    _ = combine_intervals x := rfl

end Intervalues
